import Mathlib

/-!
Shallow embedding of `alembic_rebase.py` (class `AlembicRebase`), the core of
the alembic migration rebasing tool.

Modelling conventions:
* Revision ids are `String`s.
* A migration script's `down_revision` attribute may be `None`, a string, or a
  tuple of strings in Python; `DownRev` mirrors those three shapes.  The
  traversal in `_get_migration_chain` tests Python truthiness
  (`if script.down_revision:`), so `None`, the empty string and the empty
  tuple all act as "no parent"; a non-empty tuple is followed through its
  first element.  `DownRev.next` captures exactly that.
* `ScriptDirectory.get_revision` (alembic library) resolves a revision id to
  its script object; it is modelled as an association lookup over the loaded
  script list.  The unbounded `while` loop of `_get_migration_chain` is
  modelled with explicit fuel; `ChainErr.outOfFuel` for every fuel value
  represents divergence of the Python loop.
-/

namespace AlembicRebase

/-- Shape of a script's recorded `down_revision` attribute: Python `None`,
a single string, or a tuple/list of strings. -/
inductive DownRev where
  | none
  | one (s : String)
  | many (l : List String)
deriving DecidableEq, Repr

/-- The parent link actually followed by `_get_migration_chain`: the loop
breaks when `script.down_revision` is falsy (`None`, `""`, `()`), otherwise it
follows the string itself, or element `[0]` of a tuple. -/
def DownRev.next : DownRev → Option String
  | .none => Option.none
  | .one s => if s = "" then Option.none else some s
  | .many [] => Option.none
  | .many (d :: _) => some d

/-- All revision ids recorded as parents (used to decide which revisions are
heads: a head is a revision no other script lists as a parent). -/
def DownRev.parents : DownRev → List String
  | .none => []
  | .one s => [s]
  | .many l => l

/-- One migration script as seen through alembic's `ScriptDirectory`:
its revision id and its recorded `down_revision`.  Its file path is
identified with its revision id (every alembic script object carries a
path; the file store below is keyed by revision id). -/
structure Script where
  revision : String
  down : DownRev
deriving DecidableEq, Repr

/-- A loaded `ScriptDirectory`: the list of all scripts. -/
abbrev ScriptDir := List Script

/-- Model of `ScriptDirectory.get_revision`: resolve a revision id to its
script, `none` when absent (the Python call raises, which callers either
catch or propagate). -/
def getRevision (sd : ScriptDir) (r : String) : Option Script :=
  sd.find? (fun s => s.revision == r)

/-- Errors escaping the chain traversal: a revision id in the parent chain
that cannot be resolved (alembic raises), or exhaustion of the fuel bound,
which models the Python loop running forever. -/
inductive ChainErr where
  | notFound (r : String)
  | outOfFuel
deriving DecidableEq, Repr

/-- The `while` loop body of `_get_migration_chain`, producing the chain
head-first (newest first), i.e. in the order Python appends before its final
`reversed`.  Each loop iteration consumes one unit of fuel. -/
def chainUpAux (sd : ScriptDir) : Nat → Script → Except ChainErr (List String)
  | 0, _ => .error .outOfFuel
  | fuel + 1, s =>
    match s.down.next with
    | Option.none => .ok [s.revision]
    | some d =>
      match getRevision sd d with
      | Option.none => .error (.notFound d)
      | some t => (chainUpAux sd fuel t).map (fun l => s.revision :: l)

/-- Model of `AlembicRebase._get_migration_chain`: resolve the starting
revision, walk parent links to a root, and reverse into oldest-first order. -/
def getMigrationChain (sd : ScriptDir) (fuel : Nat) (r : String) :
    Except ChainErr (List String) :=
  match getRevision sd r with
  | Option.none => .error (.notFound r)
  | some s => (chainUpAux sd fuel s).map List.reverse

/-- Model of `AlembicRebase._find_common_ancestor`: build the top chain,
scan the base chain from its root end, and return the first revision that
occurs in both (`None` when the chains are disjoint). -/
def findCommonAncestor (sd : ScriptDir) (fuel : Nat) (topHead baseHead : String) :
    Except ChainErr (Option String) :=
  match getMigrationChain sd fuel topHead with
  | .error e => .error e
  | .ok tc =>
    match getMigrationChain sd fuel baseHead with
    | .error e => .error e
    | .ok bc => .ok (bc.find? (fun r => tc.contains r))

/-- Model of `ScriptDirectory.get_heads` as used by
`_get_current_heads_from_files`: the revisions that no other script records
as a parent. -/
def headsOf (sd : ScriptDir) : List String :=
  (sd.filter (fun s => sd.all (fun t => !(t.down.parents.contains s.revision)))).map
    (fun s => s.revision)

/-- The parent path the traversal walks, as a relation: `ChainFrom sd r m`
says `m` is the newest-first path from `r` down to a parentless root,
following `DownRev.next` through `getRevision`. -/
inductive ChainFrom (sd : ScriptDir) : String → List String → Prop where
  | root (r : String) (s : Script) (hs : getRevision sd r = some s)
      (hn : s.down.next = Option.none) : ChainFrom sd r [r]
  | cons (r : String) (s : Script) (p : String) (m : List String)
      (hs : getRevision sd r = some s) (hn : s.down.next = some p)
      (hm : ChainFrom sd p m) : ChainFrom sd r (r :: m)

/-- A three-element linear history (`r1 → r2 → r3`), as in the spec's own
example for the History Graph Builder. -/
def linSd : ScriptDir :=
  [⟨"r1", .none⟩, ⟨"r2", .one "r1"⟩, ⟨"r3", .one "r2"⟩]

/-- The spec's deep-prefix example history: shared prefix `p1→p2→p3→p4`
branching into `p4→a1→a2` and `p4→b1→b2`. -/
def branchSd : ScriptDir :=
  [⟨"p1", .none⟩, ⟨"p2", .one "p1"⟩, ⟨"p3", .one "p2"⟩, ⟨"p4", .one "p3"⟩,
   ⟨"a1", .one "p4"⟩, ⟨"a2", .one "a1"⟩, ⟨"b1", .one "p4"⟩, ⟨"b2", .one "b1"⟩]

/-- A two-element parent-link cycle (`c1 → c2 → c1`), the corrupted-history
shape the spec demands a `CyclicHistory` failure for. -/
def cycSd : ScriptDir := [⟨"c1", .one "c2"⟩, ⟨"c2", .one "c1"⟩]

/-!
File-content layer.  Migration files are modelled as lists of lines, each
line a `List Char` (the patterns used by the Python code are all `^`-anchored
under `re.MULTILINE` and their tokens do not cross a line break in the
well-formed, line-oriented script layout the spec fixes, so matching and
substitution act line by line; `re.search` takes the earliest matching line,
`re.sub` rewrites every matching line).  The two patterns are

  `^revision\s*=\s*['\"]([^'\"]+)['\"]`
  `^down_revision\s*=\s*(['\"]([^'\"]*)['\"]|None)`

The greedy munches below coincide with Python's backtracking matcher: `\s*`
is followed by `=` which is not whitespace, and `[^'\"]*`/`[^'\"]+` are
followed by a quote class excluded from the munch, so only the maximal
munch can succeed.
-/

/-- One line of a migration file. -/
abbrev Line := List Char

/-- ASCII whitespace as matched by Python's `\s`. -/
def isWsChar (c : Char) : Bool :=
  c = ' ' || c = '\t' || c = '\n' || c = '\r' || c = '\x0b' || c = '\x0c'

/-- The character class `['\"]`: a single or double quote. -/
def isQuoteChar (c : Char) : Bool :=
  c = '\'' || c = '"'

/-- Match a literal string at the front, returning the remainder. -/
def dropLit : List Char → List Char → Option (List Char)
  | [], cs => some cs
  | _ :: _, [] => Option.none
  | p :: ps, c :: cs => if c = p then dropLit ps cs else Option.none

/-- Match `^revision\s*=\s*['\"]([^'\"]+)['\"]` at the start of a line:
returns the captured revision id and the remainder of the line after the
match, or `none` if the line does not match. -/
def matchRevLine (line : Line) : Option (List Char × List Char) :=
  match dropLit "revision".toList line with
  | Option.none => Option.none
  | some r1 =>
    match r1.dropWhile isWsChar with
    | '=' :: r3 =>
      match r3.dropWhile isWsChar with
      | q :: r5 =>
        if isQuoteChar q then
          match r5.dropWhile (fun c => !isQuoteChar c) with
          | _ :: r7 =>
            if (r5.takeWhile (fun c => !isQuoteChar c)).isEmpty then Option.none
            else some (r5.takeWhile (fun c => !isQuoteChar c), r7)
          | [] => Option.none
        else Option.none
      | [] => Option.none
    | _ => Option.none

/-- Match `^down_revision\s*=\s*(['\"]([^'\"]*)['\"]|None)` at the start of
a line: returns the parsed parent (`none` when the literal `None` matched,
`some id` when a quoted id matched — mirroring group(1) != "None" in the
Python code) and the remainder of the line after the match. -/
def matchDownLine (line : Line) : Option (Option (List Char) × List Char) :=
  match dropLit "down_revision".toList line with
  | Option.none => Option.none
  | some r1 =>
    match r1.dropWhile isWsChar with
    | '=' :: r3 =>
      match r3.dropWhile isWsChar with
      | q :: r5 =>
        if isQuoteChar q then
          match r5.dropWhile (fun c => !isQuoteChar c) with
          | _ :: r7 => some (some (r5.takeWhile (fun c => !isQuoteChar c)), r7)
          | [] => Option.none
        else
          match dropLit "None".toList (q :: r5) with
          | some r6 => some (Option.none, r6)
          | Option.none => Option.none
      | [] => Option.none
    | _ => Option.none

/-- First result of `f` over a list, in order — the behaviour of `re.search`
over the lines of the content. -/
def findFirstSome {α β : Type} (f : α → Option β) : List α → Option β
  | [] => Option.none
  | a :: as =>
    match f a with
    | some b => some b
    | Option.none => findFirstSome f as

/-- Parse failure of `_parse_migration_file`: the mandatory revision field
is missing (the Python code raises `AlembicRebaseError`). -/
inductive ParseErr where
  | noRevisionField
deriving DecidableEq, Repr

/-- Model of `AlembicRebase._parse_migration_file` on file content: extract
the first `revision` field (error when absent) and the first
`down_revision` field (`none` both for an absent field and for a literal
`None`, exactly as the Python code leaves `down_revision = None`). -/
def parseFile (lines : List Line) :
    Except ParseErr (List Char × Option (List Char)) :=
  match findFirstSome matchRevLine lines with
  | Option.none => .error .noRevisionField
  | some (rev, _) =>
    match findFirstSome matchDownLine lines with
    | Option.none => .ok (rev, Option.none)
    | some (v, _) => .ok (rev, v)

/-- The canonical revision line written by `_update_migration_file`:
`revision = '<id>'` followed by whatever stood after the old match. -/
def mkRevLine (newRev : List Char) (rest : List Char) : Line :=
  "revision = ".toList ++ '\'' :: (newRev ++ '\'' :: rest)

/-- The canonical parent line written by `_update_migration_file`:
`down_revision = '<id>'` (or `down_revision = None` when the new parent is
falsy) followed by whatever stood after the old match. -/
def mkDownLine (newDown : Option (List Char)) (rest : List Char) : Line :=
  match newDown with
  | some d =>
    if d = [] then "down_revision = None".toList ++ rest
    else "down_revision = ".toList ++ '\'' :: (d ++ '\'' :: rest)
  | Option.none => "down_revision = None".toList ++ rest

/-- One line under the first `re.sub` of `_update_migration_file`
(the revision field). -/
def subRevLine (newRev : List Char) (line : Line) : Line :=
  match matchRevLine line with
  | some (_, rest) => mkRevLine newRev rest
  | Option.none => line

/-- One line under the second `re.sub` of `_update_migration_file`
(the parent field; Python tests `if new_down_revision:` — truthiness — so an
empty string behaves like `None`). -/
def subDownLine (newDown : Option (List Char)) (line : Line) : Line :=
  match matchDownLine line with
  | some (_, rest) => mkDownLine newDown rest
  | Option.none => line

/-- Model of `AlembicRebase._update_migration_file` on file content: first
substitute every matching revision line, then every matching parent line,
in the same order as the two `re.sub` calls. -/
def updateMigrationFile (lines : List Line) (newRev : List Char)
    (newDown : Option (List Char)) : List Line :=
  (lines.map (subRevLine newRev)).map (subDownLine newDown)

/-- The on-disk script store: file contents keyed by the revision id that
names the file (the path alembic records for that revision). -/
abbrev Files := List (String × List Line)

/-- Read a file from the store. -/
def lookupFile (files : Files) (r : String) : Option (List Line) :=
  (files.find? (fun p => p.fst == r)).map (fun p => p.snd)

/-- Write a file back to the store at the same path. -/
def setFile : Files → String → List Line → Files
  | [], r, v => [(r, v)]
  | (k, w) :: t, r, v =>
    if k == r then (r, v) :: t else (k, w) :: setFile t r v

/-- Model of `AlembicRebase._find_migration_file`: resolve the revision
through the script directory and return its path (identified with the
revision id); `none` when the revision is unknown. -/
def findMigrationFile (sd : ScriptDir) (r : String) : Option String :=
  (getRevision sd r).map (fun _ => r)

/-- Substring test (Python `re.search` of an unanchored literal such as
`def upgrade\(\)`, which cannot span a line break). -/
def containsSeq (pat : List Char) : List Char → Bool
  | [] => pat.isEmpty
  | c :: tl => pat.isPrefixOf (c :: tl) || containsSeq pat tl

/-- Model of `AlembicRebase._validate_migration_file_integrity`: the file
must resolve, be readable (any exception is caught and yields `False`), and
contain the four required patterns.  The final Python `compile(...)` step
(byte-compiling the script) concerns the Python language itself and is
outside this model of the four pattern checks. -/
def validateFileIntegrity (sd : ScriptDir) (files : Files) (r : String) : Bool :=
  match findMigrationFile sd r with
  | Option.none => false
  | some _ =>
    match lookupFile files r with
    | Option.none => false
    | some lines =>
      (lines.any (fun l => (matchRevLine l).isSome)) &&
      (lines.any (fun l => (matchDownLine l).isSome)) &&
      (lines.any (fun l => containsSeq "def upgrade()".toList l)) &&
      (lines.any (fun l => containsSeq "def downgrade()".toList l))

/-- Errors that escape `_validate_migration_chain_integrity` as exceptions:
an unreadable file (`IOError` from `read_text`) or a file whose mandatory
revision field cannot be parsed (`AlembicRebaseError` from
`_parse_migration_file`); neither is caught by the validator. -/
inductive ScriptReadErr where
  | readFailed (r : String)
  | malformed (r : String)
deriving DecidableEq, Repr

/-- Read and parse a stored migration file, as `_parse_migration_file` does
when called on a path inside the chain validator. -/
def parseStoredFile (files : Files) (r : String) :
    Except ScriptReadErr (List Char × Option (List Char)) :=
  match lookupFile files r with
  | Option.none => .error (.readFailed r)
  | some lines =>
    match parseFile lines with
    | .error _ => .error (.malformed r)
    | .ok p => .ok p

/-- Outcome of `_validate_migration_chain_integrity`, keeping the reason the
Python code logs before returning `False`: a missing migration file, or a
broken link reported with the actual recorded parent and the expected
predecessor. -/
inductive ChainCheck where
  | ok
  | fileMissing (r : String)
  | broken (r : String) (actual : Option (List Char)) (expected : String)
deriving DecidableEq, Repr

/-- The boolean the Python function actually returns. -/
def ChainCheck.toBool : ChainCheck → Bool
  | .ok => true
  | _ => false

/-- Iterations `i > 0` of the loop in
`_validate_migration_chain_integrity`: each element's recorded parent must
equal the previous element's revision id. -/
def chainIntegrityAux (sd : ScriptDir) (files : Files) :
    String → List String → Except ScriptReadErr ChainCheck
  | _, [] => .ok .ok
  | prev, r :: rest =>
    match findMigrationFile sd r with
    | Option.none => .ok (.fileMissing r)
    | some _ =>
      match parseStoredFile files r with
      | .error e => .error e
      | .ok (_, down) =>
        if down = some prev.toList then chainIntegrityAux sd files r rest
        else .ok (.broken r down prev)

/-- Model of `AlembicRebase._validate_migration_chain_integrity`: iteration
`i = 0` locates and parses the first file but performs no linkage comparison
(`continue`), later iterations compare each recorded parent with the
previous element. -/
def validateChainIntegrity (sd : ScriptDir) (files : Files) :
    List String → Except ScriptReadErr ChainCheck
  | [] => .ok .ok
  | r :: rest =>
    match findMigrationFile sd r with
    | Option.none => .ok (.fileMissing r)
    | some _ =>
      match parseStoredFile files r with
      | .error e => .error e
      | .ok _ => chainIntegrityAux sd files r rest

/-- A demo store for the validator: file contents are double-quoted variants
accepted by the same patterns.  `vr1` records the garbage parent `zzz`,
`vr2` records `r1`. -/
def vFiles : Files :=
  [("r1", ["revision = \"r1\"".toList, "down_revision = \"zzz\"".toList]),
   ("r2", ["revision = \"r2\"".toList, "down_revision = \"r1\"".toList])]

/-- The script directory matching `vFiles`. -/
def vSd : ScriptDir := [⟨"r1", .one "zzz"⟩, ⟨"r2", .one "r1"⟩]

/-- Some adjacent pair of the list, in order, has a recorded parent that is
not its predecessor's revision id (`downOf` gives each element's recorded
parent as read back from its file). -/
def AdjacentMismatch (downOf : String → Option (List Char)) (l : List String) : Prop :=
  ∃ q x y t, l = q ++ x :: y :: t ∧ downOf y ≠ some x.toList

/-- Parent map recorded by `vFiles`. -/
def vDownOf : String → Option (List Char) :=
  fun r => if r = "r1" then some "zzz".toList else some "r1".toList

/-!
The rebase orchestrator (`AlembicRebase.rebase`).  Configuration loading
(`_load_alembic_config`) is the entry condition: its result is the script
directory and file store the model starts from.  The externally visible
actions — Migration Engine calls (`command.downgrade` / `command.upgrade`)
and migration file writes — are recorded in an effect trace in program
order.  The model splits at the exact source line where the first effect
happens: everything from `_validate_revisions` up to computing
`migrations_to_rebase` (lines 460-493) is the pure planning part, and the
execution part starts with `_downgrade_to_revision(common_ancestor)`.
-/

/-- An externally visible action of `rebase`, in program order. -/
inductive Effect where
  | downgrade (r : String)
  | upgradeTo (r : String)
  | writeFile (r : String)
deriving DecidableEq, Repr

/-- Every way `rebase` raises, one constructor per `raise` site (plus the
propagated exceptions of its callees). -/
inductive RebaseErr where
  | sameHeads
  | topMissing
  | baseMissing
  | noCurrentHeads
  | notReachable
  | chainFailed (e : ChainErr)
  | noCommonAncestor
  | ancestorNotInBase
  | noTopAfterAncestor
  | rewriteFileMissing (r : String)
  | fileReadFailed (r : String)
  | fileIntegrityFailed (r : String)
  | scriptReadFailed (e : ScriptReadErr)
  | chainIntegrityFailed
deriving DecidableEq, Repr

/-- Union of the chains of all current heads, in head order, as
`_validate_revisions` accumulates it (set semantics: only membership is ever
used). -/
def headChainsUnion (sd : ScriptDir) (fuel : Nat) :
    List String → Except ChainErr (List String)
  | [] => .ok []
  | h :: hs =>
    match getMigrationChain sd fuel h with
    | .error e => .error e
    | .ok c =>
      match headChainsUnion sd fuel hs with
      | .error e => .error e
      | .ok r => .ok (c ++ r)

/-- Model of `AlembicRebase._validate_revisions(top_head, base_head)`:
current heads first, then the five checks in source order (equal ids,
missing top script, missing base script, no heads, reachability). -/
def validateRevisions (sd : ScriptDir) (fuel : Nat) (tp bs : String) :
    Except RebaseErr Unit :=
  let heads := headsOf sd
  if tp == bs then .error .sameHeads
  else
    match findMigrationFile sd tp with
    | Option.none => .error .topMissing
    | some _ =>
      match findMigrationFile sd bs with
      | Option.none => .error .baseMissing
      | some _ =>
        if heads.isEmpty then .error .noCurrentHeads
        else
          match getMigrationChain sd fuel tp with
          | .error e => .error (.chainFailed e)
          | .ok tc =>
            match getMigrationChain sd fuel bs with
            | .error e => .error (.chainFailed e)
            | .ok bc =>
              match headChainsUnion sd fuel heads with
              | .error e => .error (.chainFailed e)
              | .ok hc =>
                let tr := hc.contains tp || heads.any (fun h => tc.contains h)
                let br := hc.contains bs || heads.any (fun h => bc.contains h)
                if !tr && !br then .error .notReachable else .ok ()

/-- Everything Phase 1 of `rebase` computes before the first effect. -/
structure RebasePlan where
  ancestor : String
  baseChain : List String
  topChain : List String
  migrationsToRebase : List String
deriving DecidableEq, Repr

/-- The pure part of `rebase` (source lines 460-493): validation, common
ancestor, both chains, the ancestor's index in the base chain, and the
migrations to rebase — all before the downgrade call. -/
def planRebase (sd : ScriptDir) (fuel : Nat) (bs tp : String) :
    Except RebaseErr RebasePlan :=
  match validateRevisions sd fuel tp bs with
  | .error e => .error e
  | .ok () =>
    match findCommonAncestor sd fuel tp bs with
    | .error e => .error (.chainFailed e)
    | .ok Option.none => .error .noCommonAncestor
    | .ok (some anc) =>
      match getMigrationChain sd fuel bs with
      | .error e => .error (.chainFailed e)
      | .ok bc =>
        match getMigrationChain sd fuel tp with
        | .error e => .error (.chainFailed e)
        | .ok tc =>
          match bc.findIdx? (fun rv => rv == anc) with
          | Option.none => .error .ancestorNotInBase
          | some i => .ok ⟨anc, bc, tc, bc.drop (i + 1)⟩

/-- The loop of `_rewrite_migration_files`, threading the parent each
element is relinked to (`last_top_migration` for element 0, the previous
element afterwards), writing each file through `_update_migration_file`
with its revision id unchanged, and stopping at the first error as the
raised exception would. -/
def rewriteFiles (sd : ScriptDir) :
    Files → String → List String →
      List Effect × Files × Except RebaseErr Unit
  | files, _, [] => ([], files, .ok ())
  | files, prev, r :: rest =>
    match findMigrationFile sd r with
    | Option.none => ([], files, .error (.rewriteFileMissing r))
    | some _ =>
      match lookupFile files r with
      | Option.none => ([], files, .error (.fileReadFailed r))
      | some lines =>
        let newLines := updateMigrationFile lines r.toList (some prev.toList)
        let files2 := setFile files r newLines
        let out := rewriteFiles sd files2 r rest
        (.writeFile r :: out.1, out.2)

/-- The post-downgrade part of `rebase` (source lines 495-540): the
downgrade effect, the rebasing point, file rewriting, both integrity
validations, and the upgrade effects. -/
def executeRebase (sd : ScriptDir) (files : Files) (p : RebasePlan)
    (tp : String) : List Effect × Files × Except RebaseErr Unit :=
  match (p.topChain.filter (fun rv => rv != p.ancestor)).getLast? with
  | Option.none => ([.downgrade p.ancestor], files, .error .noTopAfterAncestor)
  | some lastTop =>
    match rewriteFiles sd files lastTop p.migrationsToRebase with
    | (tw, files2, .error e) => (.downgrade p.ancestor :: tw, files2, .error e)
    | (tw, files2, .ok ()) =>
      match p.migrationsToRebase.find?
          (fun rv => !validateFileIntegrity sd files2 rv) with
      | some r =>
        (.downgrade p.ancestor :: tw, files2, .error (.fileIntegrityFailed r))
      | Option.none =>
        match validateChainIntegrity sd files2 p.migrationsToRebase with
        | .error e =>
          (.downgrade p.ancestor :: tw, files2, .error (.scriptReadFailed e))
        | .ok c =>
          if c.toBool then
            (.downgrade p.ancestor ::
              tw ++ .upgradeTo tp :: p.migrationsToRebase.map .upgradeTo,
             files2, .ok ())
          else (.downgrade p.ancestor :: tw, files2, .error .chainIntegrityFailed)

/-- Model of `AlembicRebase.rebase(base_head, top_head)`: plan, then — only
if no validation error was raised — execute. -/
def rebase (sd : ScriptDir) (files : Files) (fuel : Nat) (bs tp : String) :
    List Effect × Files × Except RebaseErr Unit :=
  match planRebase sd fuel bs tp with
  | .error e => ([], files, .error e)
  | .ok p => executeRebase sd files p tp

/-- The failures C3 names: the Validating-phase errors (equal heads, a
missing script, no current heads, unreachable heads, no common ancestor,
ancestor absent from the base chain). -/
def isValidationErr : RebaseErr → Bool
  | .sameHeads => true
  | .topMissing => true
  | .baseMissing => true
  | .noCurrentHeads => true
  | .notReachable => true
  | .noCommonAncestor => true
  | .ancestorNotInBase => true
  | _ => false

/-- Canonical demo content for a migration file of revision `r` with parent
`d` (double-quoted spellings, accepted by the same patterns). -/
def mkFile (r d : String) : List Line :=
  ["revision = \"".toList ++ r.toList ++ ['"'],
   "down_revision = \"".toList ++ d.toList ++ ['"'],
   "def upgrade()".toList, "def downgrade()".toList]

/-- A file store matching `branchSd`. -/
def branchFiles : Files :=
  [("p1", mkFile "p1" ""), ("p2", mkFile "p2" "p1"), ("p3", mkFile "p3" "p2"),
   ("p4", mkFile "p4" "p3"), ("a1", mkFile "a1" "p4"), ("a2", mkFile "a2" "a1"),
   ("b1", mkFile "b1" "p4"), ("b2", mkFile "b2" "b1")]

/-- A history whose rebase set is empty: the base head `b` is itself the
(sole) common ancestor of `b` and `t`. -/
def e4Sd : ScriptDir := [⟨"b", .none⟩, ⟨"t", .one "b"⟩]

/-- The matching file store. -/
def e4Files : Files := [("b", mkFile "b" ""), ("t", mkFile "t" "b")]

/-- The spec's simple branch history (`root→a1→a2` and `root→b1→b2`) with
its file store. -/
def sBrSd : ScriptDir :=
  [⟨"root", .none⟩, ⟨"a1", .one "root"⟩, ⟨"a2", .one "a1"⟩,
   ⟨"b1", .one "root"⟩, ⟨"b2", .one "b1"⟩]

/-- The file store matching `sBrSd`. -/
def sBrFiles : Files :=
  [("root", mkFile "root" ""), ("a1", mkFile "a1" "root"),
   ("a2", mkFile "a2" "a1"), ("b1", mkFile "b1" "root"),
   ("b2", mkFile "b2" "b1")]

/-- A resolved script's recorded revision id is the id it was looked up by. -/
theorem getRevision_rev {sd : ScriptDir} {r : String} {s : Script}
    (h : getRevision sd r = some s) : s.revision = r := by
  simpa using List.find?_some h

/-- A successful run of the traversal loop walks a `ChainFrom` path. -/
theorem chainUpAux_sound (sd : ScriptDir) :
    ∀ (fuel : Nat) (s : Script) (m : List String),
      getRevision sd s.revision = some s → chainUpAux sd fuel s = .ok m →
      ChainFrom sd s.revision m := by
  intro fuel
  induction fuel with
  | zero => intro s m _ h; simp [chainUpAux] at h
  | succ n ih =>
    intro s m hs h
    unfold chainUpAux at h
    split at h
    · rename_i hd
      simp only [Except.ok.injEq] at h
      subst h
      exact .root _ s hs hd
    · rename_i d hd
      split at h
      · simp at h
      · rename_i t hg
        cases hrec : chainUpAux sd n t with
        | error e => rw [hrec] at h; simp [Except.map] at h
        | ok m2 =>
          rw [hrec] at h
          simp only [Except.map, Except.ok.injEq] at h
          have ht : t.revision = d := getRevision_rev hg
          have hgt : getRevision sd t.revision = some t := by rw [ht]; exact hg
          have ihc := ih t m2 hgt hrec
          rw [ht] at ihc
          subst h
          exact .cons _ s d m2 hs hd ihc

/-- Chains are nonempty. -/
theorem ChainFrom.ne_nil {sd : ScriptDir} {r : String} {m : List String}
    (h : ChainFrom sd r m) : m ≠ [] := by cases h <;> simp

/-- A chain starts at the revision it was built from. -/
theorem ChainFrom.head? {sd : ScriptDir} {r : String} {m : List String}
    (h : ChainFrom sd r m) : m.head? = some r := by cases h <;> rfl

/-- The traversal is deterministic: one path per starting revision. -/
theorem ChainFrom.det {sd : ScriptDir} :
    ∀ {r : String} {m1 m2 : List String},
      ChainFrom sd r m1 → ChainFrom sd r m2 → m1 = m2 := by
  intro r m1 m2 h1
  induction h1 generalizing m2 with
  | root r s hs hn =>
    intro h2
    cases h2 with
    | root => rfl
    | cons r2 s2 p2 m3 hs2 hn2 hm2 =>
      rw [hs] at hs2
      injection hs2 with he
      subst he
      rw [hn] at hn2
      cases hn2
  | cons r s p m hs hn hm ih =>
    intro h2
    cases h2 with
    | root r2 s2 hs2 hn2 =>
      rw [hs] at hs2
      injection hs2 with he
      subst he
      rw [hn] at hn2
      cases hn2
    | cons r2 s2 p2 m3 hs2 hn2 hm2 =>
      rw [hs] at hs2
      injection hs2 with he
      subst he
      rw [hn] at hn2
      injection hn2 with hp
      subst hp
      rw [ih hm2]

/-- Every member of a chain roots its own chain, a suffix of the larger one. -/
theorem ChainFrom.suffix_of_mem {sd : ScriptDir} :
    ∀ {r : String} {m : List String} {x : String},
      ChainFrom sd r m → x ∈ m → ∃ m2, ChainFrom sd x m2 ∧ m2 <:+ m := by
  intro r m x h
  induction h with
  | root r s hs hn =>
    intro hx
    rw [List.mem_singleton] at hx
    subst hx
    exact ⟨_, .root _ s hs hn, List.suffix_refl _⟩
  | cons r s p m hs hn hm ih =>
    intro hx
    rcases List.mem_cons.mp hx with h1 | h2
    · subst h1
      exact ⟨_, .cons _ s p m hs hn hm, List.suffix_refl _⟩
    · obtain ⟨m2, hc, hsuf⟩ := ih h2
      exact ⟨m2, hc, hsuf.trans (List.suffix_cons _ _)⟩

/-- A chain never revisits a revision. -/
theorem ChainFrom.nodup {sd : ScriptDir} :
    ∀ {r : String} {m : List String}, ChainFrom sd r m → m.Nodup := by
  intro r m h
  induction h with
  | root => simp
  | cons r s p m hs hn hm ih =>
    refine List.nodup_cons.mpr ⟨?_, ih⟩
    intro hr
    obtain ⟨m2, hc, hsuf⟩ := ChainFrom.suffix_of_mem hm hr
    have he : m2 = r :: m := ChainFrom.det hc (.cons r s p m hs hn hm)
    have hlen := hsuf.length_le
    rw [he] at hlen
    simp at hlen

/-- A nonempty suffix determines the last element. -/
theorem getLast?_of_suffix {l1 l2 : List String} (h : l1 <:+ l2)
    (hne : l1 ≠ []) : l2.getLast? = l1.getLast? := by
  obtain ⟨t, rfl⟩ := h
  rw [List.getLast?_append]
  cases hx : l1.getLast? with
  | none => exact absurd (List.getLast?_eq_none_iff.mp hx) hne
  | some x => rfl

/-- A chain ends at a parentless root. -/
theorem ChainFrom.last {sd : ScriptDir} :
    ∀ {r : String} {m : List String}, ChainFrom sd r m →
      ∃ q t, m.getLast? = some q ∧ getRevision sd q = some t ∧
        t.down.next = Option.none := by
  intro r m h
  induction h with
  | root r s hs hn => exact ⟨r, s, rfl, hs, hn⟩
  | cons r s p m hs hn hm ih =>
    obtain ⟨q, t, hq, ht, htn⟩ := ih
    refine ⟨q, t, ?_, ht, htn⟩
    show ([r] ++ m).getLast? = some q
    rw [List.getLast?_append, hq]
    rfl

/-- Adjacent chain elements are linked by a recorded parent pointer. -/
theorem ChainFrom.adj {sd : ScriptDir} :
    ∀ {r : String} {m : List String}, ChainFrom sd r m →
      ∀ (q : List String) (x y : String) (t : List String),
        m = q ++ x :: y :: t →
        ∃ s, getRevision sd x = some s ∧ s.down.next = some y := by
  intro r m h
  induction h with
  | root r s hs hn =>
    intro q x y t he
    exfalso
    have := congrArg List.length he
    simp at this
    omega
  | cons r s p m hs hn hm ih =>
    intro q x y t he
    cases q with
    | nil =>
      simp only [List.nil_append, List.cons.injEq] at he
      obtain ⟨hx, hm2⟩ := he
      subst hx
      have hh := ChainFrom.head? hm
      rw [hm2] at hh
      simp only [List.head?_cons, Option.some.injEq] at hh
      refine ⟨s, hs, ?_⟩
      rw [hn, hh]
    | cons a q2 =>
      simp only [List.cons_append, List.cons.injEq] at he
      exact ih q2 x y t he.2

/-- A successful full chain computation is the reverse of a `ChainFrom` path. -/
theorem getMigrationChain_sound {sd : ScriptDir} {fuel : Nat} {r : String}
    {l : List String} (h : getMigrationChain sd fuel r = .ok l) :
    ∃ m, ChainFrom sd r m ∧ l = m.reverse := by
  unfold getMigrationChain at h
  split at h
  · simp at h
  · rename_i s hg
    cases hc : chainUpAux sd fuel s with
    | error e => rw [hc] at h; simp [Except.map] at h
    | ok m =>
      rw [hc] at h
      simp only [Except.map, Except.ok.injEq] at h
      have hsr : s.revision = r := getRevision_rev hg
      have hchain := chainUpAux_sound sd fuel s m (by rw [hsr]; exact hg) hc
      rw [hsr] at hchain
      exact ⟨m, hchain, h.symm⟩

/-- C9: on a well-formed history (the traversal succeeds, which rules out
cycles and unresolvable parents), `_get_migration_chain` returns a nonempty,
duplicate-free, oldest-first chain: its last element is the requested
revision, its first element has no followable parent link, and every element
other than the first records the immediately preceding element as its (first)
parent. -/
theorem getMigrationChain_wellformed {sd : ScriptDir} {fuel : Nat} {x : String}
    {l : List String} (h : getMigrationChain sd fuel x = .ok l) :
    l ≠ [] ∧ l.getLast? = some x ∧ l.Nodup ∧
    (∃ q t, l.head? = some q ∧ getRevision sd q = some t ∧
      t.down.next = Option.none) ∧
    (∀ (q : List String) (a b : String) (t : List String),
      l = q ++ a :: b :: t →
      ∃ s, getRevision sd b = some s ∧ s.down.next = some a) := by
  obtain ⟨m, hc, rfl⟩ := getMigrationChain_sound h
  have hne : m ≠ [] := hc.ne_nil
  refine ⟨by simpa using hne, ?_, by simpa using hc.nodup, ?_, ?_⟩
  · rw [List.getLast?_reverse]
    exact hc.head?
  · obtain ⟨q, t, hq, ht, htn⟩ := hc.last
    refine ⟨q, t, ?_, ht, htn⟩
    rw [List.head?_reverse]
    exact hq
  · intro q a b t he
    have hm : m = t.reverse ++ b :: a :: q.reverse := by
      have := congrArg List.reverse he
      simpa [List.reverse_append] using this
    exact hc.adj t.reverse b a q.reverse hm

/-- Witness for C9: `chainOf(r3) = [r1, r2, r3]` on the linear history, and
the chain really satisfies the proved well-formedness facts. -/
theorem getMigrationChain_wellformed_witness :
    getMigrationChain linSd 5 "r3" = .ok ["r1", "r2", "r3"] ∧
    (["r1", "r2", "r3"] : List String).getLast? = some "r3" ∧
    (["r1", "r2", "r3"] : List String).Nodup := by
  have h : getMigrationChain linSd 5 "r3" = .ok ["r1", "r2", "r3"] := rfl
  have hw := getMigrationChain_wellformed h
  exact ⟨h, hw.2.1, hw.2.2.1⟩

/-- If two chains meet at all, they share their root: the suffix of either
chain hanging below a shared revision is the shared revision's own chain. -/
theorem ChainFrom.shared_root {sd : ScriptDir} {a b x : String}
    {ma mb : List String} (ha : ChainFrom sd a ma) (hb : ChainFrom sd b mb)
    (hxa : x ∈ ma) (hxb : x ∈ mb) : ma.getLast? = mb.getLast? := by
  obtain ⟨m1, hc1, hs1⟩ := ha.suffix_of_mem hxa
  obtain ⟨m2, hc2, hs2⟩ := hb.suffix_of_mem hxb
  have he : m1 = m2 := hc1.det hc2
  rw [getLast?_of_suffix hs1 hc1.ne_nil, getLast?_of_suffix hs2 hc2.ne_nil, he]

/-- C8: `_find_common_ancestor` is symmetric on every pair of revisions whose
chains are computable (well-formed history): whether the chains overlap or
not, the scan returns the same result in both argument orders — when they
overlap, both directions return the shared root of the two chains. -/
theorem findCommonAncestor_symm {sd : ScriptDir} {fuel : Nat} {a b : String}
    {la lb : List String}
    (ha : getMigrationChain sd fuel a = .ok la)
    (hb : getMigrationChain sd fuel b = .ok lb) :
    findCommonAncestor sd fuel a b = findCommonAncestor sd fuel b a := by
  obtain ⟨ma, hca, hla⟩ := getMigrationChain_sound ha
  obtain ⟨mb, hcb, hlb⟩ := getMigrationChain_sound hb
  subst hla
  subst hlb
  unfold findCommonAncestor
  rw [ha, hb]
  show Except.ok (mb.reverse.find? fun r => ma.reverse.contains r) =
    Except.ok (ma.reverse.find? fun r => mb.reverse.contains r)
  by_cases hov : ∃ x, x ∈ ma ∧ x ∈ mb
  · obtain ⟨x, hxa, hxb⟩ := hov
    obtain ⟨q, t, hq, _, _⟩ := hca.last
    have hqb : mb.getLast? = some q := by
      rw [← hca.shared_root hcb hxa hxb]
      exact hq
    have hqma : q ∈ ma := List.mem_of_mem_getLast? (by rw [hq]; rfl)
    have hqmb : q ∈ mb := List.mem_of_mem_getLast? (by rw [hqb]; rfl)
    have h1 : mb.reverse.find? (fun r => ma.reverse.contains r) = some q := by
      have hhead : mb.reverse.head? = some q := by
        rw [List.head?_reverse]
        exact hqb
      cases hmb : mb.reverse with
      | nil => rw [hmb] at hhead; cases hhead
      | cons h0 tl =>
        rw [hmb] at hhead
        simp only [List.head?_cons, Option.some.injEq] at hhead
        subst hhead
        exact List.find?_cons_of_pos tl
          (List.elem_eq_true_of_mem (List.mem_reverse.mpr hqma))
    have h2 : ma.reverse.find? (fun r => mb.reverse.contains r) = some q := by
      have hhead : ma.reverse.head? = some q := by
        rw [List.head?_reverse]
        exact hq
      cases hma : ma.reverse with
      | nil => rw [hma] at hhead; cases hhead
      | cons h0 tl =>
        rw [hma] at hhead
        simp only [List.head?_cons, Option.some.injEq] at hhead
        subst hhead
        exact List.find?_cons_of_pos tl
          (List.elem_eq_true_of_mem (List.mem_reverse.mpr hqmb))
    rw [h1, h2]
  · push_neg at hov
    have h1 : mb.reverse.find? (fun r => ma.reverse.contains r) = none := by
      apply List.find?_eq_none.mpr
      intro x hx
      intro hc
      exact hov x (List.mem_reverse.mp (List.mem_of_elem_eq_true hc))
        (List.mem_reverse.mp hx)
    have h2 : ma.reverse.find? (fun r => mb.reverse.contains r) = none := by
      apply List.find?_eq_none.mpr
      intro x hx
      intro hc
      exact hov x (List.mem_reverse.mp hx)
        (List.mem_reverse.mp (List.mem_of_elem_eq_true hc))
    rw [h1, h2]

/-- Witness for C8: symmetry holds on the branched demo history. -/
theorem findCommonAncestor_symm_witness :
    findCommonAncestor branchSd 20 "a2" "b2" =
      findCommonAncestor branchSd 20 "b2" "a2" := by
  have ha : getMigrationChain branchSd 20 "a2" = .ok ["p1", "p2", "p3", "p4", "a1", "a2"] := rfl
  have hb : getMigrationChain branchSd 20 "b2" = .ok ["p1", "p2", "p3", "p4", "b1", "b2"] := rfl
  exact findCommonAncestor_symm ha hb

/-- C1: on the deep-prefix history the code returns the FIRST shared revision
scanning the base chain from its root, namely `p1`, not the deepest shared
revision `p4` that its own docstring ("the last migration that both branches
share"), the spec, and the repository's own test
`test_find_common_ancestor_deep_history` require. -/
theorem findCommonAncestor_first_match :
    findCommonAncestor branchSd 20 "a2" "b2" = .ok (some "p1") ∧
    findCommonAncestor branchSd 20 "b2" "a2" = .ok (some "p1") ∧
    ("p1" : String) ≠ "p4" := by
  exact ⟨rfl, rfl, by decide⟩

/-- C7: `_get_migration_chain` has no cycle detection: on the cyclic history
the loop never finishes for any fuel bound (the Python loop runs forever),
and in particular never raises a cycle error. -/
theorem getMigrationChain_cycle_diverges :
    ∀ fuel : Nat, getMigrationChain cycSd fuel "c1" = .error .outOfFuel := by
  have key : ∀ n : Nat,
      chainUpAux cycSd n ⟨"c1", .one "c2"⟩ = .error .outOfFuel ∧
      chainUpAux cycSd n ⟨"c2", .one "c1"⟩ = .error .outOfFuel := by
    intro n
    induction n with
    | zero => exact ⟨rfl, rfl⟩
    | succ k ih =>
      constructor
      · have h1 : chainUpAux cycSd (k + 1) ⟨"c1", .one "c2"⟩ =
            (chainUpAux cycSd k ⟨"c2", .one "c1"⟩).map (fun l => "c1" :: l) := rfl
        rw [h1, ih.2]
        rfl
      · have h2 : chainUpAux cycSd (k + 1) ⟨"c2", .one "c1"⟩ =
            (chainUpAux cycSd k ⟨"c1", .one "c2"⟩).map (fun l => "c2" :: l) := rfl
        rw [h2, ih.1]
        rfl
  intro fuel
  have h : getMigrationChain cycSd fuel "c1" =
      (chainUpAux cycSd fuel ⟨"c1", .one "c2"⟩).map List.reverse := rfl
  rw [h, (key fuel).1]
  rfl

/-- C10: the chain-linkage validator checks nothing for lists shorter than
two — the empty list passes unconditionally, and a single-element list
passes as soon as its file resolves, is readable, and parses, whatever
parent that file records. -/
theorem validateChainIntegrity_short :
    (∀ (sd : ScriptDir) (files : Files),
      validateChainIntegrity sd files [] = .ok .ok) ∧
    (∀ (sd : ScriptDir) (files : Files) (r : String) (s : Script)
        (lines : List Line) (p : List Char × Option (List Char)),
      getRevision sd r = some s → lookupFile files r = some lines →
      parseFile lines = .ok p →
      validateChainIntegrity sd files [r] = .ok .ok) := by
  constructor
  · intro sd files
    rfl
  · intro sd files r s lines p hs hl hp
    have h1 : validateChainIntegrity sd files [r] =
        match findMigrationFile sd r with
        | Option.none => .ok (.fileMissing r)
        | some _ =>
          match parseStoredFile files r with
          | .error e => .error e
          | .ok _ => chainIntegrityAux sd files r [] := rfl
    have h2 : findMigrationFile sd r = some r := by
      unfold findMigrationFile
      rw [hs]
      rfl
    have e1 : parseStoredFile files r =
        match lookupFile files r with
        | Option.none => .error (.readFailed r)
        | some ls =>
          match parseFile ls with
          | .error _ => .error (.malformed r)
          | .ok q => .ok q := rfl
    rw [hl] at e1
    have e2 : parseStoredFile files r =
        match parseFile lines with
        | .error _ => .error (.malformed r)
        | .ok q => .ok q := e1.trans rfl
    rw [hp] at e2
    have h3 : parseStoredFile files r = .ok p := e2.trans rfl
    rw [h2, h3] at h1
    exact h1.trans rfl

/-- Witness for C10: a single-element list passes the validator although its
file records the parent `zzz`, which matches nothing. -/
theorem validateChainIntegrity_short_witness :
    validateChainIntegrity vSd vFiles ["r1"] = .ok .ok := by
  exact validateChainIntegrity_short.2 vSd vFiles "r1" ⟨"r1", .one "zzz"⟩
    ["revision = \"r1\"".toList, "down_revision = \"zzz\"".toList]
    ("r1".toList, some "zzz".toList) rfl rfl rfl

/-- A singleton list has no adjacent pair. -/
theorem adjacentMismatch_single {downOf : String → Option (List Char)}
    {x : String} : ¬ AdjacentMismatch downOf [x] := by
  rintro ⟨q, a, b, t, he, _⟩
  have := congrArg List.length he
  simp at this
  omega

/-- Peeling one element off an adjacent-pair search. -/
theorem adjacentMismatch_cons {downOf : String → Option (List Char)}
    {a b : String} {t : List String} :
    AdjacentMismatch downOf (a :: b :: t) ↔
      downOf b ≠ some a.toList ∨ AdjacentMismatch downOf (b :: t) := by
  constructor
  · rintro ⟨q, x, y, u, he, hm⟩
    cases q with
    | nil =>
      simp only [List.nil_append, List.cons.injEq] at he
      obtain ⟨hx, hy, ht⟩ := he
      subst hx
      rw [← hy] at hm
      left
      exact hm
    | cons c q2 =>
      simp only [List.cons_append, List.cons.injEq] at he
      right
      rw [he.2]
      exact ⟨q2, x, y, u, rfl, hm⟩
  · rintro (hm | ⟨q, x, y, u, he, hm⟩)
    · exact ⟨[], a, b, t, rfl, hm⟩
    · exact ⟨a :: q, x, y, u, by rw [List.cons_append, he], hm⟩

/-- Behaviour of the tail loop of the chain validator under the assumption
that every listed file resolves, reads, and parses (to the parent map
`downOf`): it reports `broken` exactly at the first adjacent mismatch of
`prev :: migs`, with the actual and the expected value. -/
theorem chainIntegrityAux_spec {sd : ScriptDir} {files : Files}
    {downOf : String → Option (List Char)} :
    ∀ (migs : List String) (prev : String),
      (∀ r ∈ migs, (findMigrationFile sd r).isSome = true ∧
        parseStoredFile files r = .ok (r.toList, downOf r)) →
      ((∃ r a e, chainIntegrityAux sd files prev migs = .ok (.broken r a e)) ↔
        AdjacentMismatch downOf (prev :: migs)) ∧
      (∀ r a e, chainIntegrityAux sd files prev migs = .ok (.broken r a e) →
        a = downOf r ∧
        ∃ q t, prev :: migs = q ++ e :: r :: t ∧ downOf r ≠ some e.toList) := by
  intro migs
  induction migs with
  | nil =>
    intro prev _
    constructor
    · constructor
      · rintro ⟨r, a, e, h⟩
        simp [chainIntegrityAux] at h
      · intro h
        exact absurd h adjacentMismatch_single
    · intro r a e h
      simp [chainIntegrityAux] at h
  | cons r0 rest ih =>
    intro prev h
    obtain ⟨hfind, hparse⟩ := h r0 (List.mem_cons_self r0 rest)
    obtain ⟨pth, hpth⟩ := Option.isSome_iff_exists.mp hfind
    have hrest : ∀ r ∈ rest, (findMigrationFile sd r).isSome = true ∧
        parseStoredFile files r = .ok (r.toList, downOf r) :=
      fun r hr => h r (List.mem_cons_of_mem r0 hr)
    have hred0 : chainIntegrityAux sd files prev (r0 :: rest) =
        match findMigrationFile sd r0 with
        | Option.none => .ok (.fileMissing r0)
        | some _ =>
          match parseStoredFile files r0 with
          | .error e => .error e
          | .ok (_, down) =>
            if down = some prev.toList then chainIntegrityAux sd files r0 rest
            else .ok (.broken r0 down prev) := rfl
    rw [hpth, hparse] at hred0
    have hred : chainIntegrityAux sd files prev (r0 :: rest) =
        if downOf r0 = some prev.toList then chainIntegrityAux sd files r0 rest
        else .ok (.broken r0 (downOf r0) prev) := hred0.trans rfl
    by_cases hmatch : downOf r0 = some prev.toList
    · rw [hred, if_pos hmatch]
      obtain ⟨ihiff, ihchar⟩ := ih r0 hrest
      constructor
      · rw [ihiff, adjacentMismatch_cons]
        constructor
        · intro hadj
          exact Or.inr hadj
        · rintro (hne | hadj)
          · exact absurd hmatch hne
          · exact hadj
      · intro r a e hb
        obtain ⟨ha, q, t, hdec, hne⟩ := ihchar r a e hb
        exact ⟨ha, prev :: q, t, by rw [List.cons_append, hdec], hne⟩
    · rw [hred, if_neg hmatch]
      constructor
      · constructor
        · intro _
          exact ⟨[], prev, r0, rest, rfl, hmatch⟩
        · intro _
          exact ⟨r0, downOf r0, prev, rfl⟩
      · intro r a e hb
        simp only [Except.ok.injEq, ChainCheck.broken.injEq] at hb
        obtain ⟨hr, ha, he⟩ := hb
        subst hr
        subst ha
        subst he
        exact ⟨rfl, [], rest, rfl, hmatch⟩

/-- C6 (amended): assuming every listed file resolves, reads and parses, the
chain validator reports `broken` exactly when some element after the first
records a parent differing from its predecessor's revision id, and the
report carries the actual recorded parent and the expected predecessor;
the first element's recorded parent is compared against nothing. -/
theorem validateChainIntegrity_broken_iff {sd : ScriptDir} {files : Files}
    {downOf : String → Option (List Char)} {migs : List String}
    (h : ∀ r ∈ migs, (findMigrationFile sd r).isSome = true ∧
      parseStoredFile files r = .ok (r.toList, downOf r)) :
    ((∃ r a e, validateChainIntegrity sd files migs = .ok (.broken r a e)) ↔
      AdjacentMismatch downOf migs) ∧
    (∀ r a e, validateChainIntegrity sd files migs = .ok (.broken r a e) →
      a = downOf r ∧
      ∃ q t, migs = q ++ e :: r :: t ∧ downOf r ≠ some e.toList) := by
  cases migs with
  | nil =>
    constructor
    · constructor
      · rintro ⟨r, a, e, hb⟩
        simp [validateChainIntegrity] at hb
      · rintro ⟨q, x, y, t, he, _⟩
        have := congrArg List.length he
        simp at this
        omega
    · intro r a e hb
      simp [validateChainIntegrity] at hb
  | cons r0 rest =>
    obtain ⟨hfind, hparse⟩ := h r0 (List.mem_cons_self r0 rest)
    obtain ⟨pth, hpth⟩ := Option.isSome_iff_exists.mp hfind
    have hred0 : validateChainIntegrity sd files (r0 :: rest) =
        match findMigrationFile sd r0 with
        | Option.none => .ok (.fileMissing r0)
        | some _ =>
          match parseStoredFile files r0 with
          | .error e => .error e
          | .ok _ => chainIntegrityAux sd files r0 rest := rfl
    rw [hpth, hparse] at hred0
    have hred : validateChainIntegrity sd files (r0 :: rest) =
        chainIntegrityAux sd files r0 rest := hred0.trans rfl
    have hrest : ∀ r ∈ rest, (findMigrationFile sd r).isSome = true ∧
        parseStoredFile files r = .ok (r.toList, downOf r) :=
      fun r hr => h r (List.mem_cons_of_mem r0 hr)
    obtain ⟨hiff, hchar⟩ := chainIntegrityAux_spec rest r0 hrest
    rw [hred]
    exact ⟨hiff, hchar⟩

/-- Counterexample for C6 as stated: on the two-element chain below, `r2`
correctly records `r1`, while the first element `r1` records the parent
`zzz` — a value matching no revision and no conceivable planned parent of
the store — yet the validator succeeds: the first element's recorded parent
is not checked against the planned new parent (it is not checked against
anything). -/
theorem validateChainIntegrity_first_unchecked :
    validateChainIntegrity vSd vFiles ["r1", "r2"] = .ok .ok ∧
    parseStoredFile vFiles "r1" = .ok ("r1".toList, some "zzz".toList) ∧
    (vSd.all (fun s => s.revision != "zzz")) = true := by
  exact ⟨rfl, rfl, rfl⟩

/-- Witness for the amended C6: on the reordered list `[r2, r1]` the interior
element `r1` records `zzz` instead of `r2`, and the validator does report it
as broken. -/
theorem validateChainIntegrity_broken_iff_witness :
    AdjacentMismatch vDownOf ["r2", "r1"] := by
  have h : ∀ r ∈ (["r2", "r1"] : List String),
      (findMigrationFile vSd r).isSome = true ∧
      parseStoredFile vFiles r = .ok (r.toList, vDownOf r) := by
    intro r hr
    rcases List.mem_cons.mp hr with h1 | h2
    · subst h1
      exact ⟨rfl, rfl⟩
    · rw [List.mem_singleton] at h2
      subst h2
      exact ⟨rfl, rfl⟩
  exact (validateChainIntegrity_broken_iff h).1.mp
    ⟨"r1", some "zzz".toList, "r2", rfl⟩

/-- Splitting a `takeWhile`/`dropWhile` at the first failing character. -/
theorem takeWhile_append_stop {p : Char → Bool} :
    ∀ (l1 : List Char) (a : Char) (l2 : List Char),
      (∀ c ∈ l1, p c = true) → p a = false →
      (l1 ++ a :: l2).takeWhile p = l1 ∧
      (l1 ++ a :: l2).dropWhile p = a :: l2 := by
  intro l1
  induction l1 with
  | nil =>
    intro a l2 _ ha
    constructor
    · simp [List.takeWhile_cons, ha]
    · simp [List.dropWhile_cons, ha]
  | cons c t ih =>
    intro a l2 h ha
    have hc : p c = true := h c (List.mem_cons_self c t)
    have iht := ih a l2 (fun x hx => h x (List.mem_cons_of_mem c hx)) ha
    constructor
    · simp [List.takeWhile_cons, hc, iht.1]
    · simp [List.dropWhile_cons, hc, iht.2]

/-- Round trip: the canonical revision line written by the updater is matched
back by the revision pattern, capturing exactly the id written into it (for
any sane id: nonempty, quote-free). -/
theorem matchRevLine_mkRevLine (nr rest : List Char) (hne : nr ≠ [])
    (hq : ∀ c ∈ nr, isQuoteChar c = false) :
    matchRevLine (mkRevLine nr rest) = some (nr, rest) := by
  have h0 : matchRevLine (mkRevLine nr rest) =
      (match (nr ++ '\'' :: rest).dropWhile (fun c => !isQuoteChar c) with
       | _ :: r7 =>
         if ((nr ++ '\'' :: rest).takeWhile (fun c => !isQuoteChar c)).isEmpty
         then Option.none
         else some ((nr ++ '\'' :: rest).takeWhile (fun c => !isQuoteChar c), r7)
       | [] => Option.none) := rfl
  have hall : ∀ c ∈ nr, (!isQuoteChar c) = true := by
    intro c hc
    rw [hq c hc]
    rfl
  have hstop : (!isQuoteChar '\'') = false := rfl
  obtain ⟨htake, hdrop⟩ := takeWhile_append_stop nr '\'' rest hall hstop
  rw [h0, hdrop, htake]
  cases nr with
  | nil => exact absurd rfl hne
  | cons c t => rfl

/-- C5 (amended): the relink operation leaves every line that matches
neither field pattern byte-identical, and a revision line already in the
canonical form the updater itself writes (`revision = '<id>'` + remainder,
for the same id, which the rebase always passes) is also unchanged — so with
a canonical revision line only parent-link lines change.  (A revision line
in any other accepted spelling — double quotes, different spacing — is
rewritten into the canonical form, which is the counterexample to the claim
as stated.) -/
theorem updateMigrationFile_frame {lines : List Line} {newRev : List Char}
    {newDown : Option (List Char)} {i : Nat} {l : Line}
    (hg : lines.get? i = some l) (hd : matchDownLine l = Option.none) :
    (matchRevLine l = Option.none →
      (updateMigrationFile lines newRev newDown).get? i = some l) ∧
    (∀ rest, l = mkRevLine newRev rest → newRev ≠ [] →
      (∀ c ∈ newRev, isQuoteChar c = false) →
      (updateMigrationFile lines newRev newDown).get? i = some l) := by
  have hdown : subDownLine newDown l = l := by
    have e : subDownLine newDown l =
        match matchDownLine l with
        | some (_, rest) => mkDownLine newDown rest
        | Option.none => l := rfl
    rw [hd] at e
    exact e.trans rfl
  constructor
  · intro hr
    have hrev : subRevLine newRev l = l := by
      have e : subRevLine newRev l =
          match matchRevLine l with
          | some (_, rest) => mkRevLine newRev rest
          | Option.none => l := rfl
      rw [hr] at e
      exact e.trans rfl
    unfold updateMigrationFile
    rw [List.get?_map, List.get?_map, hg]
    simp only [Option.map_some']
    rw [hrev, hdown]
  · intro rest hrl hne hq
    have hm := matchRevLine_mkRevLine newRev rest hne hq
    rw [← hrl] at hm
    have hrev : subRevLine newRev l = l := by
      have e : subRevLine newRev l =
          match matchRevLine l with
          | some (_, rest) => mkRevLine newRev rest
          | Option.none => l := rfl
      rw [hm] at e
      exact (e.trans rfl).trans hrl.symm
    unfold updateMigrationFile
    rw [List.get?_map, List.get?_map, hg]
    simp only [Option.map_some']
    rw [hrev, hdown]

/-- Counterexample for C5 as stated: a file whose revision line uses double
quotes.  Relinking with the revision id unchanged rewrites that line (to the
canonical single-quoted spelling), although it is not a parent-link line, so
a byte outside the parent-link line changed. -/
theorem updateMigrationFile_touches_revision_line :
    (updateMigrationFile
        ["revision = \"abc\"".toList, "down_revision = None".toList]
        "abc".toList (some "p".toList)).get? 0 ≠
      some "revision = \"abc\"".toList ∧
    matchDownLine "revision = \"abc\"".toList = Option.none := by
  exact ⟨by decide, by decide⟩

/-- Witness for the amended C5: a comment line (matching neither pattern) is
byte-identical after the relink. -/
theorem updateMigrationFile_frame_witness :
    (updateMigrationFile
        ["# comment".toList, "down_revision = None".toList]
        "abc".toList (some "p".toList)).get? 0 = some "# comment".toList := by
  exact (@updateMigrationFile_frame
    ["# comment".toList, "down_revision = None".toList]
    "abc".toList (some "p".toList) 0 "# comment".toList rfl rfl).1 rfl

/-- The rewrite loop only fails for a missing migration file or an
unreadable one. -/
theorem rewriteFiles_err {sd : ScriptDir} :
    ∀ {files : Files} {prev : String} {migs : List String} {tw : List Effect}
      {f2 : Files} {e : RebaseErr},
      rewriteFiles sd files prev migs = (tw, f2, .error e) →
      (∃ r, e = .rewriteFileMissing r) ∨ (∃ r, e = .fileReadFailed r) := by
  intro files prev migs
  induction migs generalizing files prev with
  | nil =>
    intro tw f2 e h
    simp [rewriteFiles] at h
  | cons r0 rest ih =>
    intro tw f2 e h
    unfold rewriteFiles at h
    split at h
    · simp only [Prod.mk.injEq] at h
      obtain ⟨-, -, he⟩ := h
      injection he with he2
      exact Or.inl ⟨r0, he2.symm⟩
    · split at h
      · simp only [Prod.mk.injEq] at h
        obtain ⟨-, -, he⟩ := h
        injection he with he2
        exact Or.inr ⟨r0, he2.symm⟩
      · rename_i lines hlines
        simp only [Prod.mk.injEq] at h
        obtain ⟨-, h2⟩ := h
        have h3 : rewriteFiles sd
            (setFile files r0 (updateMigrationFile lines r0.toList
              (some prev.toList))) r0 rest =
            ((rewriteFiles sd
              (setFile files r0 (updateMigrationFile lines r0.toList
                (some prev.toList))) r0 rest).1, f2, .error e) := by
          rw [← h2]
        exact ih h3

/-- The execution phase never raises a Validating-phase error. -/
theorem executeRebase_err {sd : ScriptDir} {files : Files} {p : RebasePlan}
    {tp : String} {e : RebaseErr}
    (h : (executeRebase sd files p tp).2.2 = .error e) :
    isValidationErr e = false := by
  unfold executeRebase at h
  split at h
  · simp only at h
    injection h with he
    rw [← he]
    rfl
  · rename_i lastTop hlast
    split at h
    · rename_i tw files2 e2 heq
      simp only at h
      injection h with he
      subst he
      rcases rewriteFiles_err heq with ⟨r, rfl⟩ | ⟨r, rfl⟩ <;> rfl
    · rename_i tw files2 heq
      split at h
      · simp only at h
        injection h with he
        rw [← he]
        rfl
      · split at h
        · simp only at h
          injection h with he
          rw [← he]
          rfl
        · rename_i c hc
          split at h
          · simp at h
          · simp only at h
            injection h with he
            rw [← he]
            rfl

/-- C3: whenever `rebase` fails with one of the Validating-phase errors, no
effect has been emitted — no file write and no Migration Engine call — and
the file store is unchanged. -/
theorem rebase_validation_no_effects {sd : ScriptDir} {files : Files}
    {fuel : Nat} {bs tp : String} {e : RebaseErr}
    (h : (rebase sd files fuel bs tp).2.2 = .error e)
    (hv : isValidationErr e = true) :
    (rebase sd files fuel bs tp).1 = [] ∧
    (rebase sd files fuel bs tp).2.1 = files := by
  cases hp : planRebase sd fuel bs tp with
  | error e2 => constructor <;> simp [rebase, hp]
  | ok p =>
    exfalso
    have h2 : (executeRebase sd files p tp).2.2 = .error e := by
      have hr : rebase sd files fuel bs tp = executeRebase sd files p tp := by
        simp [rebase, hp]
      rw [hr] at h
      exact h
    rw [executeRebase_err h2] at hv
    cases hv

/-- Witness for C3: rebasing a head onto itself fails validation
(`sameHeads`) with an empty trace and an untouched store. -/
theorem rebase_validation_no_effects_witness :
    (rebase branchSd branchFiles 20 "b2" "b2").1 = [] ∧
    (rebase branchSd branchFiles 20 "b2" "b2").2.1 = branchFiles := by
  exact rebase_validation_no_effects rfl rfl

/-- Counterexample for C4 as stated: on this history the rebase set is empty
(`baseChain[index+1:] = []`), yet `rebase` raises no validation error — it
proceeds, calls the Migration Engine (downgrade to the ancestor, then
upgrade to the top head) and completes successfully. -/
theorem rebase_empty_set_proceeds :
    planRebase e4Sd 10 "b" "t" = .ok ⟨"b", ["b"], ["b", "t"], []⟩ ∧
    rebase e4Sd e4Files 10 "b" "t" =
      ([.downgrade "b", .upgradeTo "t"], e4Files, .ok ()) := by
  exact ⟨rfl, rfl⟩

/-- C4 (amended): an empty rebase set is not rejected: whenever planning
succeeds with an empty `migrations_to_rebase`, `rebase` does not fail before
the Migration Engine — its first emitted effect is the downgrade to the
common ancestor, and the only error still possible afterwards is the
(post-downgrade) empty-top-lineage error, not a validation error. -/
theorem rebase_empty_set_downgrades {sd : ScriptDir} {files : Files}
    {fuel : Nat} {bs tp : String} {p : RebasePlan}
    (hp : planRebase sd fuel bs tp = .ok p)
    (hm : p.migrationsToRebase = []) :
    (∃ rest, (rebase sd files fuel bs tp).1 = .downgrade p.ancestor :: rest) ∧
    (∀ e, (rebase sd files fuel bs tp).2.2 = .error e →
      e = .noTopAfterAncestor) := by
  have hr : rebase sd files fuel bs tp = executeRebase sd files p tp := by
    simp [rebase, hp]
  rw [hr]
  unfold executeRebase
  rw [hm]
  cases hlast : ((p.topChain.filter (fun rv => rv != p.ancestor)).getLast?) with
  | none =>
    constructor
    · exact ⟨[], rfl⟩
    · intro e he
      simp only at he
      injection he with he2
      exact he2.symm
  | some lastTop =>
    constructor
    · exact ⟨.upgradeTo tp :: [], rfl⟩
    · intro e he
      simp [rewriteFiles, validateChainIntegrity, ChainCheck.toBool] at he

/-- Witness for the amended C4: on the concrete empty-rebase-set history the
first effect is the downgrade to the ancestor `b`. -/
theorem rebase_empty_set_downgrades_witness :
    ∃ rest, (rebase e4Sd e4Files 10 "b" "t").1 =
      .downgrade "b" :: rest := by
  exact (rebase_empty_set_downgrades
    (show planRebase e4Sd 10 "b" "t" = .ok ⟨"b", ["b"], ["b", "t"], []⟩ from rfl)
    rfl).1

/-- Reading back the key just written. -/
theorem lookupFile_setFile_same :
    ∀ (files : Files) (k : String) (v : List Line),
      lookupFile (setFile files k v) k = some v := by
  intro files k v
  induction files with
  | nil => simp [setFile, lookupFile, List.find?]
  | cons kv t ih =>
    obtain ⟨k1, w⟩ := kv
    unfold setFile
    by_cases hk : k1 == k
    · rw [if_pos hk]
      simp [lookupFile, List.find?]
    · rw [if_neg hk]
      unfold lookupFile at ih ⊢
      rw [List.find?_cons_of_neg]
      · exact ih
      · simpa using hk

/-- Writing one key leaves every other key's content unchanged. -/
theorem lookupFile_setFile_other :
    ∀ (files : Files) (k k2 : String) (v : List Line), k ≠ k2 →
      lookupFile (setFile files k v) k2 = lookupFile files k2 := by
  intro files k k2 v hne
  induction files with
  | nil =>
    simp only [setFile, lookupFile, List.find?]
    have : (k == k2) = false := by simpa using hne
    rw [this]
  | cons kv t ih =>
    obtain ⟨k1, w⟩ := kv
    unfold setFile
    by_cases hk : k1 == k
    · rw [if_pos hk]
      have hk1 : k1 = k := by simpa using hk
      subst hk1
      unfold lookupFile
      rw [List.find?_cons_of_neg, List.find?_cons_of_neg]
      · simpa using hne
      · simpa using hne
    · rw [if_neg hk]
      unfold lookupFile at ih ⊢
      by_cases hk2 : k1 == k2
      · rw [List.find?_cons_of_pos, List.find?_cons_of_pos]
        · simpa using hk2
        · simpa using hk2
      · rw [List.find?_cons_of_neg, List.find?_cons_of_neg]
        · exact ih
        · simpa using hk2
        · simpa using hk2

/-- The rewrite loop never touches a file outside the listed migrations. -/
theorem rewriteFiles_frame {sd : ScriptDir} :
    ∀ {files : Files} {prev : String} {migs : List String} (k : String),
      k ∉ migs →
      lookupFile (rewriteFiles sd files prev migs).2.1 k = lookupFile files k := by
  intro files prev migs
  induction migs generalizing files prev with
  | nil => intro k _; rfl
  | cons r0 rest ih =>
    intro k hk
    have hk0 : k ≠ r0 := fun h => hk (h ▸ List.mem_cons_self r0 rest)
    have hkr : k ∉ rest := fun h => hk (List.mem_cons_of_mem r0 h)
    unfold rewriteFiles
    split
    · rfl
    · split
      · rfl
      · rename_i lines hlines
        show lookupFile (rewriteFiles sd
          (setFile files r0 (updateMigrationFile lines r0.toList
            (some prev.toList))) r0 rest).2.1 k = lookupFile files k
        rw [ih k hkr]
        exact lookupFile_setFile_other files r0 k _ (fun h => hk0 h.symm)

/-- What a successful rewrite loop writes: element `j` of the migrations is
relinked — its stored content becomes the old content updated with its own
revision id (no renaming) and the parent `(prev :: migs)[j]`, i.e. the
threaded-in parent for element 0 and the previous element afterwards. -/
theorem rewriteFiles_spec {sd : ScriptDir} :
    ∀ {files : Files} {prev : String} {migs : List String} {tw : List Effect}
      {f2 : Files},
      rewriteFiles sd files prev migs = (tw, f2, .ok ()) →
      migs.Nodup →
      ∀ (j : Nat) (r : String) (old : List Line), migs.get? j = some r →
        lookupFile files r = some old →
        ∃ par, (prev :: migs).get? j = some par ∧
          lookupFile f2 r =
            some (updateMigrationFile old r.toList (some par.toList)) := by
  intro files prev migs
  induction migs generalizing files prev with
  | nil =>
    intro tw f2 _ _ j r old hj _
    simp at hj
  | cons r0 rest ih =>
    intro tw f2 h hnd j r old hj hold
    obtain ⟨hr0, hndr⟩ := List.nodup_cons.mp hnd
    unfold rewriteFiles at h
    split at h
    · simp at h
    · split at h
      · simp at h
      · rename_i lines hlines
        simp only [Prod.mk.injEq] at h
        obtain ⟨-, h2⟩ := h
        have h3 : rewriteFiles sd
            (setFile files r0 (updateMigrationFile lines r0.toList
              (some prev.toList))) r0 rest =
            ((rewriteFiles sd
              (setFile files r0 (updateMigrationFile lines r0.toList
                (some prev.toList))) r0 rest).1, f2, .ok ()) := by
          rw [← h2]
        cases j with
        | zero =>
          simp only [List.get?_cons_zero, Option.some.injEq] at hj
          rw [← hj] at hold ⊢
          refine ⟨prev, rfl, ?_⟩
          have hfr : lookupFile f2 r0 =
              lookupFile (setFile files r0 (updateMigrationFile lines r0.toList
                (some prev.toList))) r0 := by
            have hfm := @rewriteFiles_frame sd
              (setFile files r0 (updateMigrationFile lines
                r0.toList (some prev.toList))) r0 rest r0 hr0
            rw [h3] at hfm
            exact hfm
          rw [hfr, lookupFile_setFile_same]
          have hl : lines = old := by
            rw [hlines] at hold
            injection hold
          rw [hl]
        | succ j2 =>
          simp only [List.get?_cons_succ] at hj
          have hrr0 : r ≠ r0 := by
            intro he
            exact hr0 (he ▸ List.get?_mem hj)
          have hold2 : lookupFile
              (setFile files r0 (updateMigrationFile lines r0.toList
                (some prev.toList))) r = some old := by
            rw [lookupFile_setFile_other files r0 r _ (fun h => hrr0 h.symm)]
            exact hold
          obtain ⟨par, hpar, hfin⟩ := ih h3 hndr j2 r old hj hold2
          exact ⟨par, hpar, hfin⟩

/-- A successful chain never revisits a revision (list form). -/
theorem getMigrationChain_nodup {sd : ScriptDir} {fuel : Nat} {r : String}
    {l : List String} (h : getMigrationChain sd fuel r = .ok l) : l.Nodup := by
  obtain ⟨m, hc, rfl⟩ := getMigrationChain_sound h
  simpa using hc.nodup

/-- Inverting a successful planning phase: the plan's chains are the
computed chains, and the rebase set is everything in the base chain after
the first index holding the ancestor. -/
theorem planRebase_inv {sd : ScriptDir} {fuel : Nat} {bs tp : String}
    {p : RebasePlan} (h : planRebase sd fuel bs tp = .ok p) :
    getMigrationChain sd fuel bs = .ok p.baseChain ∧
    getMigrationChain sd fuel tp = .ok p.topChain ∧
    ∃ i, p.baseChain.findIdx? (fun rv => rv == p.ancestor) = some i ∧
      p.migrationsToRebase = p.baseChain.drop (i + 1) := by
  unfold planRebase at h
  split at h
  · simp at h
  · split at h
    · simp at h
    · simp at h
    · rename_i anc hanc
      split at h
      · simp at h
      · rename_i bc hbc
        split at h
        · simp at h
        · rename_i tc htc
          split at h
          · simp at h
          · rename_i i hidx
            simp only [Except.ok.injEq] at h
            subst h
            exact ⟨hbc, htc, i, hidx, rfl⟩

/-- C2: when the common ancestor sits at index `i` of the base chain, the
rebase set is exactly `baseChain[i+1:]` element by element, and a successful
rewrite pass relinks element `j` — keeping its own revision id, never
renaming — to the parent `(lineageTip :: rebaseSet)[j]`: the last element of
the target chain that is not the ancestor for element 0, and element `j-1`'s
original revision id afterwards. -/
theorem rebase_plan_linkage {sd : ScriptDir} {fuel : Nat} {bs tp : String}
    {p : RebasePlan} {i : Nat}
    (hp : planRebase sd fuel bs tp = .ok p)
    (hi : p.baseChain.findIdx? (fun rv => rv == p.ancestor) = some i) :
    (∀ j, p.migrationsToRebase.get? j = p.baseChain.get? (i + 1 + j)) ∧
    (∀ (files : Files) (lt : String) (tw : List Effect) (f2 : Files),
      (p.topChain.filter (fun rv => rv != p.ancestor)).getLast? = some lt →
      rewriteFiles sd files lt p.migrationsToRebase = (tw, f2, .ok ()) →
      ∀ (j : Nat) (r : String) (old : List Line),
        p.migrationsToRebase.get? j = some r →
        lookupFile files r = some old →
        ∃ par, (lt :: p.migrationsToRebase).get? j = some par ∧
          lookupFile f2 r =
            some (updateMigrationFile old r.toList (some par.toList))) := by
  obtain ⟨hbc, htc, i0, hidx0, hmig⟩ := planRebase_inv hp
  have hii : i0 = i := by
    rw [hidx0] at hi
    injection hi
  subst hii
  constructor
  · intro j
    rw [hmig]
    exact List.get?_drop p.baseChain (i0 + 1) j
  · intro files lt tw f2 hlt hrw j r old hj hold
    have hnodup : p.migrationsToRebase.Nodup := by
      rw [hmig]
      exact (getMigrationChain_nodup hbc).sublist
        (List.drop_sublist (i0 + 1) p.baseChain)
    exact rewriteFiles_spec hrw hnodup j r old hj hold

/-- Witness for C2, the spec's own example: rebasing `[b1, b2]` onto `a2`
relinks `b2` to its original predecessor `b1` (and keeps the id `b2`). -/
theorem rebase_plan_linkage_witness :
    ∃ par, (("a2" : String) :: ["b1", "b2"]).get? 1 = some par ∧
      lookupFile (rewriteFiles sBrSd sBrFiles "a2" ["b1", "b2"]).2.1 "b2" =
        some (updateMigrationFile (mkFile "b2" "b1") "b2".toList
          (some par.toList)) := by
  have hp : planRebase sBrSd 10 "b2" "a2" =
      .ok ⟨"root", ["root", "b1", "b2"], ["root", "a1", "a2"],
        ["b1", "b2"]⟩ := rfl
  have hi : (["root", "b1", "b2"] : List String).findIdx?
      (fun rv => rv == "root") = some 0 := rfl
  have hlt : ((["root", "a1", "a2"] : List String).filter
      (fun rv => rv != "root")).getLast? = some "a2" := rfl
  have hrw : rewriteFiles sBrSd sBrFiles "a2" ["b1", "b2"] =
      ((rewriteFiles sBrSd sBrFiles "a2" ["b1", "b2"]).1,
        (rewriteFiles sBrSd sBrFiles "a2" ["b1", "b2"]).2.1, .ok ()) := rfl
  exact (rebase_plan_linkage hp hi).2 sBrFiles "a2" _ _ hlt hrw 1 "b2"
    (mkFile "b2" "b1") rfl rfl

end AlembicRebase
